import Mathlib

/-!
Verification of the `clean_text` pipeline of `clip_cleaner.py`
(smart-clipboard-cleaner).

Text is modelled as `List Char` (one entry per Unicode scalar value, matching
Python's per-code-point view of `str`).  Each transformation step of
`clean_text` (lines 44-93 of the source) is embedded as an executable Lean
function; the summary dict is embedded as a structure whose optional
`lang_punct_replaced` key is an `Option Nat`.
-/

namespace ClipCleaner

/-- Python's whitespace set: `str.isspace` / the `\s` class of the `re`
module in Unicode mode.  Listed by code point. -/
def isPySpace (c : Char) : Bool :=
  [9, 10, 11, 12, 13, 28, 29, 30, 31, 32, 133, 160, 5760,
   8192, 8193, 8194, 8195, 8196, 8197, 8198, 8199, 8200, 8201, 8202,
   8232, 8233, 8239, 8287, 12288].contains c.toNat

/-- Source line 34-36: the language punctuation map, in insertion order.
Each single-character key maps to its replacement string. -/
def LANG_PUNCT_MAP : List (Char × List Char) :=
  [('¿', ['?']), ('¡', ['!']), ('«', ['"']), ('»', ['"']),
   ('—', ['-']), ('–', ['-']), ('…', ['.', '.', '.'])]

/-- Source line 38. -/
def FANCY_DOUBLE : List Char := ['“', '”']

/-- Source line 39. -/
def FANCY_SINGLE : List Char := ['‘', '’']

/-- Python `text.replace(src, dst)` for a single-character `src`
(occurrences of a single character never overlap, so the left-to-right
replacement is a pointwise expansion). -/
def replaceChar (src : Char) (dst : List Char) (l : List Char) : List Char :=
  (l.map fun c => if c = src then dst else [c]).flatten

/-- Source lines 59-62: replace both fancy double quotes by `"`, then both
fancy single quotes by `'`, via repeated `str.replace`. -/
def replaceFancy (l : List Char) : List Char :=
  FANCY_SINGLE.foldl (fun t ch => replaceChar ch ['\''] t)
    (FANCY_DOUBLE.foldl (fun t ch => replaceChar ch ['"'] t) l)

/-- Source lines 67-71: the loop over `LANG_PUNCT_MAP.items()`, threading
the text and the running `replaced` total. -/
def langFold (E : List (Char × List Char)) (p : List Char × Nat) :
    List Char × Nat :=
  E.foldl
    (fun p e => if e.1 ∈ p.1 then (replaceChar e.1 e.2 p.1, p.2 + p.1.count e.1) else p)
    p

/-- Source lines 65-72: the language-mode substitution step, started with a
zero running total. -/
def langStep (l : List Char) : List Char × Nat :=
  langFold LANG_PUNCT_MAP (l, 0)

/-- Python `text.replace("\r\n", "\n")`: left-to-right, non-overlapping. -/
def replaceCRLF : List Char → List Char
  | '\r' :: '\n' :: cs => '\n' :: replaceCRLF cs
  | c :: cs => c :: replaceCRLF cs
  | [] => []

/-- Source line 77: `text.replace('\r\n', '\n').replace('\r', '\n')`. -/
def normalizeNewlines (l : List Char) : List Char :=
  replaceChar '\r' ['\n'] (replaceCRLF l)

/-- Python `re.sub(r'\s+', ' ', text)`: each maximal run of whitespace
becomes a single ASCII space (emitted at the last character of the run). -/
def subWs : List Char → List Char
  | [] => []
  | [c] => if isPySpace c then [' '] else [c]
  | c :: d :: cs =>
    if isPySpace c then
      if isPySpace d then subWs (d :: cs) else ' ' :: subWs (d :: cs)
    else c :: subWs (d :: cs)

/-- Python `text.strip()`: drop whitespace from both ends. -/
def stripWs (l : List Char) : List Char :=
  ((l.dropWhile isPySpace).reverse.dropWhile isPySpace).reverse

/-- Source lines 81 and 90: `MULTISPACE_PATTERN.sub(' ', text).strip()`. -/
def collapseWs (l : List Char) : List Char :=
  stripWs (subWs l)

/-- Scanner for the regex `\?utm_[^\s\n]+` (source line 41), driving both
`findall` (the match count) and `sub('', ...)` (the removal) in one
left-to-right pass.  The `Bool` state is `true` while the greedy
`[^\s\n]+` tail of a current match is being consumed (those characters are
dropped); in state `false` the scanner looks for the literal `?utm_`
followed by at least one non-whitespace character. -/
def utmAux : Bool → List Char → Nat × List Char
  | true, [] => (0, [])
  | true, c :: cs =>
    if isPySpace c then
      let p := utmAux false cs
      (p.1, c :: p.2)
    else utmAux true cs
  | false, [] => (0, [])
  | false, '?' :: 'u' :: 't' :: 'm' :: '_' :: [] => (0, ['?', 'u', 't', 'm', '_'])
  | false, '?' :: 'u' :: 't' :: 'm' :: '_' :: d :: rest =>
    if isPySpace d then
      let p := utmAux false (d :: rest)
      (p.1, '?' :: 'u' :: 't' :: 'm' :: '_' :: p.2)
    else
      let p := utmAux true rest
      (p.1 + 1, p.2)
  | false, c :: cs =>
    let p := utmAux false cs
    (p.1, c :: p.2)

/-- Boolean check: every whitespace character of the list is an ASCII
space. -/
def allWsIsSpace (l : List Char) : Bool :=
  l.all fun c => !isPySpace c || c == ' '

/-- Boolean check: no two adjacent characters are both whitespace. -/
def noDoubleSpace : List Char → Bool
  | c :: d :: cs => (!(isPySpace c && isPySpace d)) && noDoubleSpace (d :: cs)
  | _ => true

/-- Boolean check: the list neither starts nor ends with whitespace. -/
def noEdgeWs (l : List Char) : Bool :=
  (match l.head? with
   | some c => !isPySpace c
   | none => true) &&
  (match l.getLast? with
   | some c => !isPySpace c
   | none => true)

/-- Boolean check: the list begins with the literal `?utm_` followed by at
least one non-whitespace character — exactly the texts at which the regex
`\?utm_[^\s\n]+` can match. -/
def startsUtm : List Char → Bool
  | '?' :: 'u' :: 't' :: 'm' :: '_' :: d :: _ => !isPySpace d
  | _ => false

/-- No position of the list starts a UTM match. -/
def utmFree (l : List Char) : Prop := ∀ n, startsUtm (l.drop n) = false

/-- The list is empty or begins with a whitespace character. -/
def spaceHeaded (r : List Char) : Prop :=
  r = [] ∨ ∃ x xs, r = x :: xs ∧ isPySpace x = true

/-- The single-character mapping realized by the fancy-quote replacement
step: both fancy double quotes go to `"`, both fancy single quotes to `'`,
and every other character is untouched. -/
def quoteMap (c : Char) : Char :=
  if c = '“' ∨ c = '”' then '"'
  else if c = '‘' ∨ c = '’' then '\'' else c

/-- The source characters of the punctuation table, in order. -/
def langSources : List Char := LANG_PUNCT_MAP.map Prod.fst

/-- The summary dict filled in by `clean_text`.  The key
`lang_punct_replaced` is only assigned when `language_mode` is true, hence
an `Option`. -/
structure Summary where
  fancy_double_before : Nat
  fancy_single_before : Nat
  lang_punct_replaced : Option Nat
  utm_removed_count : Nat
  final_length : Nat
  deriving DecidableEq

/-- Source lines 44-93: the `clean_text` pipeline.  Returns the cleaned
text together with the summary (the Python version mutates a dict passed
by the caller; here the filled dict is returned). -/
def clean_text (text : List Char) (language_mode : Bool) : List Char × Summary :=
  -- lines 53-54: count fancy quotes before replacing
  let double_count := (FANCY_DOUBLE.map fun ch => text.count ch).sum
  let single_count := (FANCY_SINGLE.map fun ch => text.count ch).sum
  -- lines 59-62: replace fancy quotes
  let t2 := replaceFancy text
  -- lines 65-72: language mode replacement loop
  let t3 := if language_mode then (langStep t2).1 else t2
  let lang_opt := if language_mode then some (langStep t2).2 else none
  -- line 77: normalize line endings
  let t4 := normalizeNewlines t3
  -- line 81: first whitespace collapse and strip
  let t5 := collapseWs t4
  -- lines 85-87: count (findall) and remove (sub) UTM fragments
  let utm := utmAux false t5
  -- line 90: second whitespace collapse and strip
  let t7 := collapseWs utm.2
  (t7, { fancy_double_before := double_count
         fancy_single_before := single_count
         lang_punct_replaced := lang_opt
         utm_removed_count := utm.1
         final_length := t7.length })

example : clean_text "Hello “World”".data false =
    ("Hello \"World\"".data,
     { fancy_double_before := 2, fancy_single_before := 0,
       lang_punct_replaced := none, utm_removed_count := 0,
       final_length := 13 }) := by decide

example :
    clean_text "Check this: https://example.com/page?utm_source=x&utm_medium=y more text".data
      false =
    ("Check this: https://example.com/page more text".data,
     { fancy_double_before := 0, fancy_single_before := 0,
       lang_punct_replaced := none, utm_removed_count := 1,
       final_length := 46 }) := by decide

example : clean_text "¿Qué? ¡Vamos!".data true =
    ("?Qué? !Vamos!".data,
     { fancy_double_before := 0, fancy_single_before := 0,
       lang_punct_replaced := some 2, utm_removed_count := 0,
       final_length := 13 }) := by decide

example : clean_text "a\t\tb\n\nc   d".data false =
    ("a b c d".data,
     { fancy_double_before := 0, fancy_single_before := 0,
       lang_punct_replaced := none, utm_removed_count := 0,
       final_length := 7 }) := by decide

example : (clean_text "…".data true).2.final_length = 3 := by decide

/-! Basic facts about `replaceChar`. -/

theorem replaceChar_nil (src : Char) (dst : List Char) :
    replaceChar src dst [] = [] := rfl

theorem replaceChar_cons (src : Char) (dst : List Char) (c : Char) (l : List Char) :
    replaceChar src dst (c :: l) =
      (if c = src then dst else [c]) ++ replaceChar src dst l := rfl

theorem replaceChar_singleton (src r : Char) (l : List Char) :
    replaceChar src [r] l = l.map fun c => if c = src then r else c := by
  induction l with
  | nil => rfl
  | cons c l ih =>
    rw [replaceChar_cons, List.map_cons, ih]
    by_cases h : c = src <;> simp [h]

theorem mem_replaceChar {src : Char} {dst l : List Char} {c : Char}
    (h : c ∈ replaceChar src dst l) : (c ∈ l ∧ c ≠ src) ∨ c ∈ dst := by
  induction l with
  | nil => simp [replaceChar_nil] at h
  | cons a l ih =>
    rw [replaceChar_cons, List.mem_append] at h
    rcases h with h | h
    · by_cases ha : a = src
      · rw [if_pos ha] at h; exact Or.inr h
      · rw [if_neg ha] at h
        rcases List.mem_singleton.mp h with rfl
        exact Or.inl ⟨List.mem_cons_self _ _, ha⟩
    · rcases ih h with ⟨hm, hne⟩ | hd
      · exact Or.inl ⟨List.mem_cons_of_mem _ hm, hne⟩
      · exact Or.inr hd

theorem replaceChar_eq_self {src : Char} {dst l : List Char} (h : src ∉ l) :
    replaceChar src dst l = l := by
  induction l with
  | nil => rfl
  | cons a l ih =>
    rw [replaceChar_cons, if_neg (by rintro rfl; exact h (List.mem_cons_self _ _)),
      ih (fun hm => h (List.mem_cons_of_mem _ hm))]
    rfl

theorem length_replaceChar_singleton (src r : Char) (l : List Char) :
    (replaceChar src [r] l).length = l.length := by
  rw [replaceChar_singleton, List.length_map]

theorem length_replaceChar_le {dst : List Char} (hd : dst.length ≤ 3)
    (src : Char) (l : List Char) :
    (replaceChar src dst l).length ≤ l.length + 2 * l.count src := by
  induction l with
  | nil => simp [replaceChar_nil]
  | cons a l ih =>
    rw [replaceChar_cons, List.length_append, List.count_cons, List.length_cons]
    by_cases h : a = src
    · subst h
      simp only [if_pos rfl, beq_self_eq_true, if_true]
      omega
    · have hb : (a == src) = false := beq_false_of_ne h
      simp only [if_neg h, hb, Bool.false_eq_true, if_false, List.length_singleton]
      omega

theorem count_replaceChar {src c : Char} {dst l : List Char}
    (h1 : c ≠ src) (h2 : c ∉ dst) :
    (replaceChar src dst l).count c = l.count c := by
  induction l with
  | nil => rfl
  | cons a l ih =>
    by_cases ha : a = src
    · rw [replaceChar_cons, if_pos ha, List.count_append, ih,
        List.count_eq_zero.mpr h2, List.count_cons]
      have : (a == c) = false := by
        subst ha; exact beq_false_of_ne fun hs => h1 hs.symm
      simp [this]
    · rw [replaceChar_cons, if_neg ha, List.count_append, ih, List.count_cons]
      simp [List.count_cons]
      omega

theorem countP_replaceChar {p : Char → Bool} {src : Char} {dst l : List Char}
    (h1 : p src = false) (h2 : ∀ d ∈ dst, p d = false) :
    (replaceChar src dst l).countP p = l.countP p := by
  induction l with
  | nil => rfl
  | cons a l ih =>
    rw [replaceChar_cons, List.countP_append, ih, List.countP_cons]
    by_cases ha : a = src
    · subst ha
      rw [if_pos rfl, h1, List.countP_eq_zero.mpr fun d hd => by simp [h2 d hd]]
      simp
    · rw [if_neg ha]
      simp [List.countP_cons]
      omega

/-! Equation lemmas for the `utmAux` scanner. -/

theorem utmAux_true_nil : utmAux true [] = (0, []) := rfl

theorem utmAux_true_cons_sp {c : Char} (cs : List Char) (h : isPySpace c = true) :
    utmAux true (c :: cs) = ((utmAux false cs).1, c :: (utmAux false cs).2) := by
  simp [utmAux, h]

theorem utmAux_true_cons_ns {c : Char} (cs : List Char) (h : isPySpace c = false) :
    utmAux true (c :: cs) = utmAux true cs := by
  simp [utmAux, h]

theorem utmAux_false_nil : utmAux false [] = (0, []) := rfl

theorem utmAux_false_lit : utmAux false ['?', 'u', 't', 'm', '_'] =
    (0, ['?', 'u', 't', 'm', '_']) := rfl

theorem utmAux_false_match_ns {d : Char} (rest : List Char) (h : isPySpace d = false) :
    utmAux false ('?' :: 'u' :: 't' :: 'm' :: '_' :: d :: rest) =
      ((utmAux true rest).1 + 1, (utmAux true rest).2) := by
  simp [utmAux, h]

theorem utmAux_false_match_sp {d : Char} (rest : List Char) (h : isPySpace d = true) :
    utmAux false ('?' :: 'u' :: 't' :: 'm' :: '_' :: d :: rest) =
      ((utmAux false (d :: rest)).1,
        '?' :: 'u' :: 't' :: 'm' :: '_' :: (utmAux false (d :: rest)).2) := by
  simp [utmAux, h]

theorem utmAux_false_cons_ne {c : Char} (cs : List Char) (h : c ≠ '?') :
    utmAux false (c :: cs) = ((utmAux false cs).1, c :: (utmAux false cs).2) := by
  conv_lhs => rw [utmAux.eq_def]
  split <;> simp_all

/-! Facts about the language-punctuation fold. -/

theorem langFold_nil (p : List Char × Nat) : langFold [] p = p := rfl

theorem langFold_cons (e : Char × List Char) (E : List (Char × List Char))
    (t : List Char) (n : Nat) :
    langFold (e :: E) (t, n) =
      langFold E
        (if e.1 ∈ t then (replaceChar e.1 e.2 t, n + t.count e.1) else (t, n)) := rfl

theorem countP_or_disjoint (p q : Char → Bool) (t : List Char)
    (h : ∀ c, p c = true → q c = false) :
    t.countP (fun c => p c || q c) = t.countP p + t.countP q := by
  induction t with
  | nil => rfl
  | cons a t ih =>
    by_cases hpa : p a = true
    · have hqa := h a hpa
      simp [List.countP_cons, hpa, hqa, ih]
      omega
    · rw [Bool.not_eq_true] at hpa
      by_cases hqa : q a = true
      · simp [List.countP_cons, hpa, hqa, ih]
        omega
      · simp [List.countP_cons, hpa, hqa, ih]

/-- The running `replaced` total of the punctuation loop counts exactly the
characters of the incoming text that are sources of the table (provided the
sources are distinct and no replacement string contains a source, both true
of `LANG_PUNCT_MAP`). -/
theorem langFold_snd (E : List (Char × List Char))
    (hnd : (E.map Prod.fst).Nodup)
    (hdisj : ∀ e ∈ E, ∀ e' ∈ E, e.1 ∉ e'.2) :
    ∀ (t : List Char) (n : Nat),
      (langFold E (t, n)).2 = n + t.countP fun c => (E.map Prod.fst).contains c := by
  induction E with
  | nil =>
    intro t n
    simp [langFold_nil, List.countP_eq_zero]
  | cons e E ih =>
    intro t n
    obtain ⟨hne, hnd'⟩ := List.nodup_cons.mp hnd
    have hdisj' : ∀ f ∈ E, ∀ f' ∈ E, f.1 ∉ f'.2 := fun f hf f' hf' =>
      hdisj f (List.mem_cons_of_mem _ hf) f' (List.mem_cons_of_mem _ hf')
    have hE1 : ((E.map Prod.fst).contains e.1) = false := by
      rw [Bool.eq_false_iff]
      intro hc
      exact hne (by simpa using hc)
    have hEnotin : ∀ d ∈ e.2, ((E.map Prod.fst).contains d) = false := by
      intro d hd
      rw [Bool.eq_false_iff]
      intro hc
      obtain ⟨x, hx⟩ : ∃ x, (d, x) ∈ E := by simpa using hc
      exact hdisj (d, x) (List.mem_cons_of_mem _ hx) e (List.mem_cons_self _ _) hd
    have hsplit : (t.countP fun c => (((e :: E).map Prod.fst).contains c))
        = t.countP (fun c => c == e.1) + t.countP fun c => (E.map Prod.fst).contains c := by
      simp only [List.map_cons, List.contains_cons]
      exact countP_or_disjoint _ _ t fun c hc => by
        rw [eq_of_beq hc]; exact hE1
    have hcc : t.count e.1 = t.countP fun c => c == e.1 := rfl
    rw [langFold_cons]
    by_cases he : e.1 ∈ t
    · rw [if_pos he, ih hnd' hdisj',
        @countP_replaceChar (fun c => (E.map Prod.fst).contains c) e.1 e.2 t hE1 hEnotin,
        hsplit, hcc]
      omega
    · rw [if_neg he, ih hnd' hdisj', hsplit, ← hcc, List.count_eq_zero.mpr he]
      omega

theorem bool_ne_true {b : Bool} (h : ¬ b = true) : b = false := by
  cases b
  · rfl
  · exact absurd rfl h

/-! Length and membership facts for the remaining pipeline steps. -/

theorem length_replaceFancy (s : List Char) : (replaceFancy s).length = s.length := by
  show (replaceChar '’' ['\''] (replaceChar '‘' ['\'']
      (replaceChar '”' ['"'] (replaceChar '“' ['"'] s)))).length = s.length
  simp [length_replaceChar_singleton]

theorem length_replaceCRLF_le (l : List Char) : (replaceCRLF l).length ≤ l.length := by
  induction l using replaceCRLF.induct with
  | case1 cs ih => simp only [replaceCRLF, List.length_cons]; omega
  | case2 c cs h ih => simp only [replaceCRLF, List.length_cons]; omega
  | case3 => simp [replaceCRLF]

theorem length_normalizeNewlines_le (l : List Char) :
    (normalizeNewlines l).length ≤ l.length := by
  unfold normalizeNewlines
  rw [length_replaceChar_singleton]
  exact length_replaceCRLF_le l

theorem length_subWs_le (l : List Char) : (subWs l).length ≤ l.length := by
  induction l using subWs.induct with
  | case1 => simp [subWs]
  | case2 c h => simp [subWs, h]
  | case3 c h => simp [subWs, bool_ne_true h]
  | case4 c d cs h1 h2 ih =>
    simp only [List.length_cons] at ih
    simp [subWs, h1, h2]
    omega
  | case5 c d cs h1 h2 ih =>
    simp only [List.length_cons] at ih
    simp [subWs, h1, bool_ne_true h2]
    omega
  | case6 c d cs h1 ih =>
    simp only [List.length_cons] at ih
    simp [subWs, bool_ne_true h1]
    omega

theorem stripWs_sublist (l : List Char) : (stripWs l).Sublist l := by
  have h1 : (l.dropWhile isPySpace).Sublist l := List.dropWhile_sublist _
  have h2 : ((l.dropWhile isPySpace).reverse.dropWhile isPySpace).Sublist
      (l.dropWhile isPySpace).reverse := List.dropWhile_sublist _
  have h3 := h2.reverse
  rw [List.reverse_reverse] at h3
  exact h3.trans h1

theorem length_stripWs_le (l : List Char) : (stripWs l).length ≤ l.length :=
  (stripWs_sublist l).length_le

theorem length_collapseWs_le (l : List Char) : (collapseWs l).length ≤ l.length :=
  le_trans (length_stripWs_le _) (length_subWs_le l)

/-- The default-branch equation of `utmAux` in scan mode: if the head of
the list does not begin a UTM match, it is emitted unchanged. -/
theorem utmAux_false_cons_default {c : Char} {cs : List Char}
    (h1 : c = '?' → cs = ['u', 't', 'm', '_'] → False)
    (h2 : ∀ (d : Char) (rest : List Char),
      c = '?' → cs = 'u' :: 't' :: 'm' :: '_' :: d :: rest → False) :
    utmAux false (c :: cs) = ((utmAux false cs).1, c :: (utmAux false cs).2) := by
  conv_lhs => rw [utmAux.eq_def]
  split <;> simp_all

theorem utmAux_sublist (m : Bool) (l : List Char) : (utmAux m l).2.Sublist l := by
  induction m, l using utmAux.induct with
  | case1 => simp [utmAux_true_nil]
  | case2 c cs h ih =>
    rw [utmAux_true_cons_sp cs h]
    exact ih.cons₂ c
  | case3 c cs h ih =>
    rw [utmAux_true_cons_ns cs (bool_ne_true h)]
    exact ih.trans (List.sublist_cons_self c cs)
  | case4 => simp [utmAux_false_nil]
  | case5 => exact List.Sublist.refl _
  | case6 d rest h ih =>
    rw [utmAux_false_match_sp rest h]
    exact ((((ih.cons₂ '_').cons₂ 'm').cons₂ 't').cons₂ 'u').cons₂ '?'
  | case7 d rest h ih =>
    rw [utmAux_false_match_ns rest (bool_ne_true h)]
    refine ih.trans ?_
    refine (List.sublist_cons_self d rest).trans ?_
    refine (List.sublist_cons_self '_' _).trans ?_
    refine (List.sublist_cons_self 'm' _).trans ?_
    refine (List.sublist_cons_self 't' _).trans ?_
    refine (List.sublist_cons_self 'u' _).trans ?_
    exact List.sublist_cons_self '?' _
  | case8 c cs h1 h2 ih =>
    rw [utmAux_false_cons_default h1 h2]
    exact ih.cons₂ c

theorem length_utmAux_le (m : Bool) (l : List Char) :
    (utmAux m l).2.length ≤ l.length :=
  (utmAux_sublist m l).length_le

/-- Every counted UTM match consumes at least six characters (the literal
`?utm_` plus a non-empty tail), so six times the match count is bounded by
the scanned length. -/
theorem utm_count_bound (m : Bool) (l : List Char) : 6 * (utmAux m l).1 ≤ l.length := by
  induction m, l using utmAux.induct with
  | case1 => simp [utmAux_true_nil]
  | case2 c cs h ih =>
    rw [utmAux_true_cons_sp cs h]
    simp only [List.length_cons]
    omega
  | case3 c cs h ih =>
    rw [utmAux_true_cons_ns cs (bool_ne_true h)]
    simp only [List.length_cons]
    omega
  | case4 => simp [utmAux_false_nil]
  | case5 => simp [utmAux_false_lit]
  | case6 d rest h ih =>
    rw [utmAux_false_match_sp rest h]
    simp only [List.length_cons] at ih ⊢
    omega
  | case7 d rest h ih =>
    rw [utmAux_false_match_ns rest (bool_ne_true h)]
    simp only [List.length_cons]
    omega
  | case8 c cs h1 h2 ih =>
    rw [utmAux_false_cons_default h1 h2]
    simp only [List.length_cons]
    omega

/-- Unfolding of the cleaned-text component of `clean_text`. -/
theorem clean_text_fst (s : List Char) (m : Bool) :
    (clean_text s m).1 =
      collapseWs ((utmAux false (collapseWs (normalizeNewlines
        (if m then (langStep (replaceFancy s)).1 else replaceFancy s)))).2) := rfl

/-- Unfolding of the `lang_punct_replaced` entry of the summary. -/
theorem clean_text_lang_opt (s : List Char) (m : Bool) :
    (clean_text s m).2.lang_punct_replaced =
      if m then some (langStep (replaceFancy s)).2 else none := rfl

theorem langStep_snd_eq (t : List Char) :
    (langStep t).2 = t.countP fun c => langSources.contains c := by
  have h := langFold_snd LANG_PUNCT_MAP (by decide) (by decide) t 0
  rw [show (langStep t).2 = (langFold LANG_PUNCT_MAP (t, 0)).2 from rfl, h,
    Nat.zero_add]
  rfl

theorem langStep_snd_le (t : List Char) : (langStep t).2 ≤ t.length := by
  rw [langStep_snd_eq]
  exact List.countP_le_length _

theorem langFold_fst_length (E : List (Char × List Char))
    (hE : ∀ e ∈ E, e.2.length ≤ 3) :
    ∀ (t : List Char) (n : Nat),
      (langFold E (t, n)).1.length + 2 * n ≤ t.length + 2 * (langFold E (t, n)).2 := by
  induction E with
  | nil => intro t n; simp [langFold_nil]
  | cons e E ih =>
    intro t n
    have hE' : ∀ f ∈ E, f.2.length ≤ 3 := fun f hf => hE f (List.mem_cons_of_mem _ hf)
    rw [langFold_cons]
    by_cases he : e.1 ∈ t
    · rw [if_pos he]
      have h1 := ih hE' (replaceChar e.1 e.2 t) (n + t.count e.1)
      have h2 := length_replaceChar_le (hE e (List.mem_cons_self _ _)) e.1 t
      omega
    · rw [if_neg he]
      exact ih hE' t n

theorem langStep_fst_length_le (t : List Char) :
    (langStep t).1.length ≤ 3 * t.length := by
  have h1 := langFold_fst_length LANG_PUNCT_MAP (by decide) t 0
  have h2 := langStep_snd_le t
  have e1 : langStep t = langFold LANG_PUNCT_MAP (t, 0) := rfl
  rw [e1] at h2 ⊢
  omega

theorem count_two_le {a b : Char} (h : a ≠ b) (l : List Char) :
    l.count a + l.count b ≤ l.length := by
  induction l with
  | nil => simp
  | cons c l ih =>
    rw [List.count_cons, List.count_cons, List.length_cons]
    by_cases hca : c = a <;> by_cases hcb : c = b
    · exact absurd (hca.symm.trans hcb) h
    · simp [hca, hcb, h]; omega
    · simp [hca, hcb, Ne.symm h]; omega
    · simp [hca, hcb]; omega

/-! Whitespace normal form: after `collapseWs`, every whitespace character
is an ASCII space, no two adjacent characters are both whitespace, and the
ends are not whitespace. -/

theorem mem_subWs_space : ∀ {l : List Char} {c : Char},
    c ∈ subWs l → isPySpace c = true → c = ' ' := by
  intro l
  induction l using subWs.induct with
  | case1 => intro c hc; simp [subWs] at hc
  | case2 c0 h =>
    intro c hc _
    simp [subWs, h] at hc
    exact hc
  | case3 c0 h =>
    intro c hc hsp
    simp [subWs, bool_ne_true h] at hc
    rw [hc] at hsp
    rw [bool_ne_true h] at hsp
    cases hsp
  | case4 c0 d cs h1 h2 ih =>
    intro c hc hsp
    rw [show subWs (c0 :: d :: cs) = subWs (d :: cs) by simp [subWs, h1, h2]] at hc
    exact ih hc hsp
  | case5 c0 d cs h1 h2 ih =>
    intro c hc hsp
    rw [show subWs (c0 :: d :: cs) = ' ' :: subWs (d :: cs) by
      simp [subWs, h1, bool_ne_true h2]] at hc
    rcases List.mem_cons.mp hc with rfl | hc
    · rfl
    · exact ih hc hsp
  | case6 c0 d cs h1 ih =>
    intro c hc hsp
    rw [show subWs (c0 :: d :: cs) = c0 :: subWs (d :: cs) by
      simp [subWs, bool_ne_true h1]] at hc
    rcases List.mem_cons.mp hc with rfl | hc
    · rw [bool_ne_true h1] at hsp; cases hsp
    · exact ih hc hsp

theorem subWs_cons_ns {c : Char} (cs : List Char) (h : isPySpace c = false) :
    subWs (c :: cs) = c :: subWs cs := by
  cases cs <;> simp [subWs, h]

theorem nds_tail {a : Char} {w : List Char}
    (h : noDoubleSpace (a :: w) = true) : noDoubleSpace w = true := by
  cases w with
  | nil => rfl
  | cons d ws =>
    rw [show noDoubleSpace (a :: d :: ws)
        = ((!(isPySpace a && isPySpace d)) && noDoubleSpace (d :: ws)) from rfl,
      Bool.and_eq_true] at h
    exact h.2

theorem nds_cons_ns {c : Char} {w : List Char} (h : isPySpace c = false) :
    noDoubleSpace (c :: w) = noDoubleSpace w := by
  cases w with
  | nil => rfl
  | cons d ws => simp [noDoubleSpace, h]

theorem subWs_noDouble (l : List Char) : noDoubleSpace (subWs l) = true := by
  induction l using subWs.induct with
  | case1 => rfl
  | case2 c h => simp [subWs, h, noDoubleSpace]
  | case3 c h => simp [subWs, bool_ne_true h, noDoubleSpace]
  | case4 c d cs h1 h2 ih => rw [show subWs (c :: d :: cs) = subWs (d :: cs) by
      simp [subWs, h1, h2]]; exact ih
  | case5 c d cs h1 h2 ih =>
    rw [show subWs (c :: d :: cs) = ' ' :: subWs (d :: cs) by
      simp [subWs, h1, bool_ne_true h2]]
    rw [subWs_cons_ns cs (bool_ne_true h2)] at ih ⊢
    simp [noDoubleSpace, bool_ne_true h2, ih]
  | case6 c d cs h1 ih =>
    rw [show subWs (c :: d :: cs) = c :: subWs (d :: cs) by
      simp [subWs, bool_ne_true h1]]
    rw [nds_cons_ns (bool_ne_true h1)]
    exact ih

theorem nds_suffix {x y : List Char} (h : x <:+ y)
    (hy : noDoubleSpace y = true) : noDoubleSpace x = true := by
  obtain ⟨t, rfl⟩ := h
  induction t with
  | nil => exact hy
  | cons a t ih => exact ih (nds_tail hy)

theorem nds_take : ∀ (l : List Char), noDoubleSpace l = true →
    ∀ n, noDoubleSpace (l.take n) = true := by
  intro l
  induction l using noDoubleSpace.induct with
  | case1 c d cs ih =>
    intro hl n
    match n with
    | 0 => rfl
    | 1 => rfl
    | (k + 2) =>
      rw [show (c :: d :: cs).take (k + 2) = c :: d :: cs.take k from rfl]
      rw [show noDoubleSpace (c :: d :: cs.take k)
          = ((!(isPySpace c && isPySpace d)) && noDoubleSpace (d :: cs.take k)) from rfl,
        Bool.and_eq_true]
      rw [show noDoubleSpace (c :: d :: cs)
          = ((!(isPySpace c && isPySpace d)) && noDoubleSpace (d :: cs)) from rfl,
        Bool.and_eq_true] at hl
      refine ⟨hl.1, ?_⟩
      have h2 := ih hl.2 (k + 1)
      rwa [show (d :: cs).take (k + 1) = d :: cs.take k from rfl] at h2
  | case2 t ht =>
    intro _ n
    rcases t with _ | ⟨c, _ | ⟨d, cs⟩⟩
    · rw [List.take_nil]
      rfl
    · cases n with
      | zero => rfl
      | succ k =>
        rw [show ([c] : List Char).take (k + 1) = c :: List.take k [] from rfl,
          List.take_nil]
        rfl
    · exact (ht c d cs rfl).elim

theorem head_dropWhile_not (p : Char → Bool) : ∀ (l : List Char) {c : Char},
    (l.dropWhile p).head? = some c → p c = false := by
  intro l
  induction l with
  | nil =>
    intro c hc
    cases hc
  | cons a as ih =>
    intro c hc
    rw [List.dropWhile_cons] at hc
    by_cases hp : p a = true
    · rw [if_pos hp] at hc
      exact ih hc
    · rw [if_neg hp] at hc
      obtain rfl := Option.some.inj hc
      exact bool_ne_true hp

/-- The stripped list is an initial segment of the left-trimmed list. -/
theorem stripWs_shape (l : List Char) :
    ∃ t, stripWs l ++ t = l.dropWhile isPySpace := by
  have hsfx : ((l.dropWhile isPySpace).reverse.dropWhile isPySpace) <:+
      (l.dropWhile isPySpace).reverse := List.dropWhile_suffix isPySpace
  obtain ⟨t, ht⟩ := hsfx
  refine ⟨t.reverse, ?_⟩
  show ((l.dropWhile isPySpace).reverse.dropWhile isPySpace).reverse ++ t.reverse = _
  rw [← List.reverse_append, ht, List.reverse_reverse]

theorem stripWs_head_ns (l : List Char) {c : Char}
    (h : (stripWs l).head? = some c) : isPySpace c = false := by
  obtain ⟨t, ht⟩ := stripWs_shape l
  apply head_dropWhile_not isPySpace l
  rw [← ht]
  cases hsw : stripWs l with
  | nil => rw [hsw] at h; cases h
  | cons a as =>
    rw [hsw] at h
    obtain rfl := Option.some.inj h
    rfl

theorem stripWs_last_ns (l : List Char) {c : Char}
    (h : (stripWs l).getLast? = some c) : isPySpace c = false := by
  unfold stripWs at h
  rw [List.getLast?_reverse] at h
  exact head_dropWhile_not isPySpace _ h

theorem dropWhile_eq_self_of_head {p : Char → Bool} {l : List Char}
    (h : ∀ c, l.head? = some c → p c = false) : l.dropWhile p = l := by
  cases l with
  | nil => rfl
  | cons a as =>
    rw [List.dropWhile_cons, h a rfl]
    simp

theorem stripWs_eq_self {l : List Char}
    (hh : ∀ c, l.head? = some c → isPySpace c = false)
    (hl : ∀ c, l.getLast? = some c → isPySpace c = false) : stripWs l = l := by
  unfold stripWs
  rw [dropWhile_eq_self_of_head hh,
    dropWhile_eq_self_of_head fun c hc => hl c (by rwa [List.head?_reverse] at hc)]
  exact List.reverse_reverse l

theorem subWs_eq_self : ∀ (l : List Char),
    (∀ c ∈ l, isPySpace c = true → c = ' ') → noDoubleSpace l = true →
    subWs l = l := by
  intro l
  induction l using subWs.induct with
  | case1 => intro _ _; rfl
  | case2 c h =>
    intro hA _
    have hc := hA c (List.mem_singleton_self _) h
    simp [subWs, h, hc]
  | case3 c h =>
    intro _ _
    simp [subWs, bool_ne_true h]
  | case4 c d cs h1 h2 ih =>
    intro hA hB
    exfalso
    rw [show noDoubleSpace (c :: d :: cs)
        = ((!(isPySpace c && isPySpace d)) && noDoubleSpace (d :: cs)) from rfl,
      Bool.and_eq_true, h1, h2] at hB
    simp at hB
  | case5 c d cs h1 h2 ih =>
    intro hA hB
    have hc := hA c (List.mem_cons_self _ _) h1
    have hA' : ∀ x ∈ d :: cs, isPySpace x = true → x = ' ' :=
      fun x hx => hA x (List.mem_cons_of_mem _ hx)
    rw [show subWs (c :: d :: cs) = ' ' :: subWs (d :: cs) by
      simp [subWs, h1, bool_ne_true h2]]
    rw [ih hA' (nds_tail hB), hc]
  | case6 c d cs h1 ih =>
    intro hA hB
    have hA' : ∀ x ∈ d :: cs, isPySpace x = true → x = ' ' :=
      fun x hx => hA x (List.mem_cons_of_mem _ hx)
    rw [show subWs (c :: d :: cs) = c :: subWs (d :: cs) by
      simp [subWs, bool_ne_true h1]]
    rw [ih hA' (nds_tail hB)]

theorem collapseWs_all_space (u : List Char) :
    ∀ c ∈ collapseWs u, isPySpace c = true → c = ' ' := fun _ hc =>
  mem_subWs_space ((stripWs_sublist (subWs u)).subset hc)

theorem collapseWs_noDouble (u : List Char) :
    noDoubleSpace (collapseWs u) = true := by
  obtain ⟨t, ht⟩ := stripWs_shape (subWs u)
  have h1 : noDoubleSpace ((subWs u).dropWhile isPySpace) = true :=
    nds_suffix (List.dropWhile_suffix isPySpace) (subWs_noDouble u)
  have h2 : collapseWs u
      = ((subWs u).dropWhile isPySpace).take (stripWs (subWs u)).length := by
    rw [← ht, List.take_left]
    rfl
  rw [h2]
  exact nds_take _ h1 _

theorem collapseWs_head_ns (u : List Char) {c : Char}
    (h : (collapseWs u).head? = some c) : isPySpace c = false :=
  stripWs_head_ns (subWs u) h

theorem collapseWs_last_ns (u : List Char) {c : Char}
    (h : (collapseWs u).getLast? = some c) : isPySpace c = false :=
  stripWs_last_ns (subWs u) h

/-! UTM-freeness: a list in which no position can start a match of the
UTM regex is a fixed point of the scanner, and the scanner's own output is
UTM-free (whence the second pass removes nothing — the key to
idempotence). -/

theorem utmFree_nil : utmFree [] := fun n => by rw [List.drop_nil]; rfl

theorem utmFree_cons_iff {c : Char} {cs : List Char} :
    utmFree (c :: cs) ↔ startsUtm (c :: cs) = false ∧ utmFree cs := by
  constructor
  · intro h
    exact ⟨h 0, fun n => h (n + 1)⟩
  · rintro ⟨h0, h⟩ n
    cases n with
    | zero => exact h0
    | succ k => exact h k

theorem utmFree_single (c : Char) : utmFree [c] :=
  utmFree_cons_iff.mpr ⟨by rw [startsUtm.eq_def]; split <;> simp_all, utmFree_nil⟩

theorem startsUtm_ne_q {c : Char} (cs : List Char) (h : c ≠ '?') :
    startsUtm (c :: cs) = false := by
  rw [startsUtm.eq_def]
  split <;> simp_all

theorem startsUtm_match (d : Char) (rest : List Char) :
    startsUtm ('?' :: 'u' :: 't' :: 'm' :: '_' :: d :: rest) = !isPySpace d := rfl

theorem startsUtm_true_shape {l : List Char} (h : startsUtm l = true) :
    ∃ e w₂, l = '?' :: 'u' :: 't' :: 'm' :: '_' :: e :: w₂ ∧ isPySpace e = false := by
  rw [startsUtm.eq_def] at h
  split at h
  · rename_i d tl
    exact ⟨d, tl, rfl, by simpa using h⟩
  · cases h

theorem startsUtm_lit_head {w : List Char} (hw : spaceHeaded w) :
    startsUtm ('?' :: 'u' :: 't' :: 'm' :: '_' :: w) = false := by
  rcases hw with rfl | ⟨x, xs, rfl, hx⟩
  · rfl
  · rw [startsUtm_match, hx]
    rfl

theorem spaceHeaded_cons {x : Char} {xs : List Char} (h : spaceHeaded (x :: xs)) :
    isPySpace x = true := by
  rcases h with h | ⟨y, ys, heq, hy⟩
  · cases h
  · obtain ⟨rfl, rfl⟩ : x = y ∧ xs = ys := by
      injection heq with h1 h2
      exact ⟨h1, h2⟩
    exact hy

theorem space_ne_q {c : Char} (h : isPySpace c = true) : c ≠ '?' := by
  intro hc
  rw [hc] at h
  exact absurd h (by decide)

/-- An UTM-free list is a fixed point of the scanner: no match is found and
nothing is removed. -/
theorem utmFree_fixed : ∀ (m : Bool) (l : List Char), m = false → utmFree l →
    utmAux false l = (0, l) := by
  intro m l
  induction m, l using utmAux.induct with
  | case1 =>
    intro hm _
    exact absurd hm (by decide)
  | case2 c cs h ih =>
    intro hm _
    exact absurd hm (by decide)
  | case3 c cs h ih =>
    intro hm _
    exact absurd hm (by decide)
  | case4 => exact fun _ _ => rfl
  | case5 => exact fun _ _ => rfl
  | case6 d rest h ih =>
    intro _ hf
    have hf5 : utmFree (d :: rest) := fun n => hf (n + 5)
    rw [utmAux_false_match_sp rest h, ih rfl hf5]
  | case7 d rest h ih =>
    intro _ hf
    have h0 := hf 0
    rw [show (('?' :: 'u' :: 't' :: 'm' :: '_' :: d :: rest).drop 0)
        = '?' :: 'u' :: 't' :: 'm' :: '_' :: d :: rest from rfl,
      startsUtm_match, bool_ne_true h] at h0
    exact absurd h0 (by decide)
  | case8 c cs h1 h2 ih =>
    intro _ hf
    rw [utmAux_false_cons_default h1 h2, ih rfl (utmFree_cons_iff.mp hf).2]

/-- If the text after an emitted `?` decomposes into an untouched initial
segment of the rest of the scan input (which does not begin `utm_` + one
more character) followed by an empty-or-space-headed remainder, then no UTM
match can start at that `?`. -/
theorem no_new_start {w' p' r' cs q' : List Char}
    (hw : w' = p' ++ r') (hq : p' ++ q' = cs) (hr : spaceHeaded r')
    (h2 : ∀ (d : Char) (rest : List Char),
      cs = 'u' :: 't' :: 'm' :: '_' :: d :: rest → False) :
    startsUtm ('?' :: w') = false := by
  cases hsu : startsUtm ('?' :: w') with
  | false => rfl
  | true =>
    exfalso
    obtain ⟨e, w₂, heq, he⟩ := startsUtm_true_shape hsu
    injection heq with _ hweq
    rw [hweq] at hw
    rcases p' with _ | ⟨a1, _ | ⟨a2, _ | ⟨a3, _ | ⟨a4, _ | ⟨a5, p5⟩⟩⟩⟩⟩
    · rw [List.nil_append] at hw
      rw [← hw] at hr
      exact absurd (spaceHeaded_cons hr) (by decide)
    · rw [List.cons_append, List.nil_append] at hw
      injection hw with _ hw
      rw [← hw] at hr
      exact absurd (spaceHeaded_cons hr) (by decide)
    · simp only [List.cons_append, List.nil_append] at hw
      injection hw with _ hw
      injection hw with _ hw
      rw [← hw] at hr
      exact absurd (spaceHeaded_cons hr) (by decide)
    · simp only [List.cons_append, List.nil_append] at hw
      injection hw with _ hw
      injection hw with _ hw
      injection hw with _ hw
      rw [← hw] at hr
      exact absurd (spaceHeaded_cons hr) (by decide)
    · simp only [List.cons_append, List.nil_append] at hw
      injection hw with _ hw
      injection hw with _ hw
      injection hw with _ hw
      injection hw with _ hw
      rw [← hw] at hr
      have hsp := spaceHeaded_cons hr
      rw [hsp] at he
      exact absurd he (by decide)
    · simp only [List.cons_append] at hw
      injection hw with h1 hw; subst h1
      injection hw with h1 hw; subst h1
      injection hw with h1 hw; subst h1
      injection hw with h1 hw; subst h1
      injection hw with h1 hw; subst h1
      apply h2 e (p5 ++ q')
      rw [← hq]
      simp [List.cons_append]

/-- Invariant of the scanner: its output is UTM-free, and in scan mode the
output is an initial segment of the input followed by an empty-or-space-
headed remainder (a deleted match is always followed by whitespace or the
end of the text). -/
theorem utm_output_inv : ∀ (m : Bool) (l : List Char),
    (m = true → utmFree (utmAux true l).2 ∧ spaceHeaded (utmAux true l).2) ∧
    (m = false → utmFree (utmAux false l).2 ∧
      ∃ p r, (utmAux false l).2 = p ++ r ∧ (∃ q, p ++ q = l) ∧ spaceHeaded r) := by
  intro m l
  induction m, l using utmAux.induct with
  | case1 =>
    refine ⟨fun _ => ?_, fun hh => absurd hh (by decide)⟩
    rw [utmAux_true_nil]
    exact ⟨utmFree_nil, Or.inl rfl⟩
  | case2 c cs h ih =>
    refine ⟨fun _ => ?_, fun hh => absurd hh (by decide)⟩
    obtain ⟨hfree, p', r', hw, hpq, hr⟩ := ih.2 rfl
    rw [utmAux_true_cons_sp cs h]
    refine ⟨utmFree_cons_iff.mpr ⟨startsUtm_ne_q _ (space_ne_q h), hfree⟩, ?_⟩
    exact Or.inr ⟨c, _, rfl, h⟩
  | case3 c cs h ih =>
    refine ⟨fun _ => ?_, fun hh => absurd hh (by decide)⟩
    rw [utmAux_true_cons_ns cs (bool_ne_true h)]
    exact ih.1 rfl
  | case4 =>
    refine ⟨fun hh => absurd hh (by decide), fun _ => ?_⟩
    rw [utmAux_false_nil]
    exact ⟨utmFree_nil, [], [], rfl, ⟨[], rfl⟩, Or.inl rfl⟩
  | case5 =>
    refine ⟨fun hh => absurd hh (by decide), fun _ => ?_⟩
    rw [utmAux_false_lit]
    refine ⟨?_, ['?', 'u', 't', 'm', '_'], [], by simp, ⟨[], by simp⟩, Or.inl rfl⟩
    intro n
    match n with
    | 0 => rfl
    | 1 => rfl
    | 2 => rfl
    | 3 => rfl
    | 4 => rfl
    | (k + 5) =>
      rw [show ((['?', 'u', 't', 'm', '_'] : List Char).drop (k + 5))
          = List.drop k [] from rfl, List.drop_nil]
      rfl
  | case6 d rest h ih =>
    refine ⟨fun hh => absurd hh (by decide), fun _ => ?_⟩
    obtain ⟨hfree, p', r', hw, ⟨q', hq⟩, hr⟩ := ih.2 rfl
    rw [utmAux_false_match_sp rest h]
    have hwsp : spaceHeaded (utmAux false (d :: rest)).2 := by
      rcases p' with _ | ⟨a, p''⟩
      · rw [hw, List.nil_append]
        exact hr
      · have had : a = d := by
          rw [List.cons_append, List.cons.injEq] at hq
          exact hq.1
        rw [hw, List.cons_append]
        exact Or.inr ⟨a, _, rfl, by rw [had]; exact h⟩
    constructor
    · refine utmFree_cons_iff.mpr ⟨startsUtm_lit_head hwsp, ?_⟩
      refine utmFree_cons_iff.mpr ⟨startsUtm_ne_q _ (by decide), ?_⟩
      refine utmFree_cons_iff.mpr ⟨startsUtm_ne_q _ (by decide), ?_⟩
      refine utmFree_cons_iff.mpr ⟨startsUtm_ne_q _ (by decide), ?_⟩
      exact utmFree_cons_iff.mpr ⟨startsUtm_ne_q _ (by decide), hfree⟩
    · refine ⟨'?' :: 'u' :: 't' :: 'm' :: '_' :: p', r', ?_, ⟨q', ?_⟩, hr⟩
      · rw [hw]
        simp [List.cons_append]
      · simp [List.cons_append, hq]
  | case7 d rest h ih =>
    refine ⟨fun hh => absurd hh (by decide), fun _ => ?_⟩
    obtain ⟨hfree, hsp⟩ := ih.1 rfl
    rw [utmAux_false_match_ns rest (bool_ne_true h)]
    exact ⟨hfree, [], _, rfl, ⟨'?' :: 'u' :: 't' :: 'm' :: '_' :: d :: rest, rfl⟩, hsp⟩
  | case8 c cs h1 h2 ih =>
    refine ⟨fun hh => absurd hh (by decide), fun _ => ?_⟩
    obtain ⟨hfree, p', r', hw, ⟨q', hq⟩, hr⟩ := ih.2 rfl
    rw [utmAux_false_cons_default h1 h2]
    constructor
    · refine utmFree_cons_iff.mpr ⟨?_, hfree⟩
      by_cases hc : c = '?'
      · subst hc
        exact no_new_start hw hq hr fun d rest hcs => h2 d rest rfl hcs
      · exact startsUtm_ne_q _ hc
    · exact ⟨c :: p', r', by rw [hw, List.cons_append],
        ⟨q', by rw [List.cons_append, hq]⟩, hr⟩

/-- The output of the UTM-removal pass contains no UTM match. -/
theorem utm_output_free (l : List Char) : utmFree (utmAux false l).2 :=
  ((utm_output_inv false l).2 rfl).1

theorem subWs_head_space : ∀ {z : List Char},
    (∃ c z', z = c :: z' ∧ isPySpace c = true) →
    ∀ {x : Char} {w : List Char}, subWs z = x :: w → x = ' ' := by
  intro z
  induction z using subWs.induct with
  | case1 =>
    rintro ⟨c, z', hz, -⟩
    cases hz
  | case2 c h =>
    rintro - x w hsw
    rw [show subWs [c] = [' '] by simp [subWs, h]] at hsw
    injection hsw with h1 _
    exact h1.symm
  | case3 c h =>
    rintro ⟨c', z', hz, hsp⟩ x w hsw
    injection hz with h1 _
    rw [← h1] at hsp
    exact absurd hsp h
  | case4 c d cs h1 h2 ih =>
    rintro - x w hsw
    rw [show subWs (c :: d :: cs) = subWs (d :: cs) by simp [subWs, h1, h2]] at hsw
    exact ih ⟨d, cs, rfl, h2⟩ hsw
  | case5 c d cs h1 h2 ih =>
    rintro - x w hsw
    rw [show subWs (c :: d :: cs) = ' ' :: subWs (d :: cs) by
      simp [subWs, h1, bool_ne_true h2]] at hsw
    injection hsw with h1' _
    exact h1'.symm
  | case6 c d cs h1 ih =>
    rintro ⟨c', z', hz, hsp⟩ x w hsw
    injection hz with h1' _
    rw [← h1'] at hsp
    exact absurd hsp h1

theorem subWs_head_inv {z : List Char} {x : Char} {w : List Char}
    (hsw : subWs z = x :: w) (hx : isPySpace x = false) :
    ∃ z', z = x :: z' ∧ subWs z' = w := by
  cases z with
  | nil => cases hsw
  | cons c z' =>
    by_cases hc : isPySpace c = true
    · have hx' := subWs_head_space ⟨c, z', rfl, hc⟩ hsw
      rw [hx'] at hx
      exact absurd hx (by decide)
    · rw [subWs_cons_ns z' (bool_ne_true hc)] at hsw
      injection hsw with h1 h2
      exact ⟨z', by rw [h1], h2⟩

theorem subWs_utmFree : ∀ (l : List Char), utmFree l → utmFree (subWs l) := by
  intro l
  induction l using subWs.induct with
  | case1 =>
    intro _
    exact utmFree_nil
  | case2 c h =>
    intro _
    rw [show subWs [c] = [' '] by simp [subWs, h]]
    exact utmFree_single ' '
  | case3 c h =>
    intro _
    rw [show subWs [c] = [c] by simp [subWs, bool_ne_true h]]
    exact utmFree_single c
  | case4 c d cs h1 h2 ih =>
    intro hf
    rw [show subWs (c :: d :: cs) = subWs (d :: cs) by simp [subWs, h1, h2]]
    exact ih fun n => hf (n + 1)
  | case5 c d cs h1 h2 ih =>
    intro hf
    rw [show subWs (c :: d :: cs) = ' ' :: subWs (d :: cs) by
      simp [subWs, h1, bool_ne_true h2]]
    exact utmFree_cons_iff.mpr
      ⟨startsUtm_ne_q _ (by decide), ih fun n => hf (n + 1)⟩
  | case6 c d cs h1 ih =>
    intro hf
    rw [show subWs (c :: d :: cs) = c :: subWs (d :: cs) by
      simp [subWs, bool_ne_true h1]]
    have hfw : utmFree (subWs (d :: cs)) := ih fun n => hf (n + 1)
    refine utmFree_cons_iff.mpr ⟨?_, hfw⟩
    by_cases hc : c = '?'
    · subst hc
      cases hsu : startsUtm ('?' :: subWs (d :: cs)) with
      | false => rfl
      | true =>
        exfalso
        obtain ⟨e, w₂, heq, he⟩ := startsUtm_true_shape hsu
        injection heq with _ hweq
        obtain ⟨z1, hz1, hs1⟩ := subWs_head_inv hweq (by decide)
        obtain ⟨z2, hz2, hs2⟩ := subWs_head_inv hs1 (by decide)
        obtain ⟨z3, hz3, hs3⟩ := subWs_head_inv hs2 (by decide)
        obtain ⟨z4, hz4, hs4⟩ := subWs_head_inv hs3 (by decide)
        obtain ⟨z5, hz5, hs5⟩ := subWs_head_inv hs4 he
        have h0 := hf 0
        rw [show (('?' : Char) :: d :: cs).drop 0 = '?' :: d :: cs from rfl] at h0
        rw [hz2, hz3, hz4, hz5] at hz1
        rw [hz1, startsUtm_match, he] at h0
        exact absurd h0 (by decide)
    · exact startsUtm_ne_q _ hc

theorem utmFree_drop (l : List Char) (h : utmFree l) (k : Nat) :
    utmFree (l.drop k) := by
  intro n
  rw [List.drop_drop]
  exact h (k + n)

theorem startsUtm_take {l : List Char} {k : Nat} (h : startsUtm (l.take k) = true) :
    startsUtm l = true := by
  obtain ⟨e, w₂, heq, he⟩ := startsUtm_true_shape h
  have hl := (List.take_append_drop k l).symm
  rw [heq] at hl
  rw [hl,
    show ('?' :: 'u' :: 't' :: 'm' :: '_' :: e :: w₂) ++ l.drop k
      = '?' :: 'u' :: 't' :: 'm' :: '_' :: e :: (w₂ ++ l.drop k) from rfl,
    startsUtm_match, he]
  rfl

theorem utmFree_take (l : List Char) (h : utmFree l) (k : Nat) :
    utmFree (l.take k) := by
  intro n
  cases hsu : startsUtm ((l.take k).drop n) with
  | false => rfl
  | true =>
    exfalso
    rw [List.drop_take] at hsu
    have hst := startsUtm_take hsu
    rw [h n] at hst
    exact absurd hst (by decide)

theorem stripWs_utmFree (l : List Char) (h : utmFree l) : utmFree (stripWs l) := by
  have h1 : utmFree (l.dropWhile isPySpace) := by
    rw [List.suffix_iff_eq_drop.mp (List.dropWhile_suffix isPySpace)]
    exact utmFree_drop l h _
  obtain ⟨t, ht⟩ := stripWs_shape l
  have h2 : stripWs l = (l.dropWhile isPySpace).take (stripWs l).length := by
    rw [← ht, List.take_left]
  rw [h2]
  exact utmFree_take _ h1 _

theorem collapseWs_utmFree (l : List Char) (h : utmFree l) :
    utmFree (collapseWs l) :=
  stripWs_utmFree _ (subWs_utmFree _ h)

/-! Character-domain facts: which characters each pipeline step can emit,
and which it eliminates. -/

theorem not_mem_replaceChar {c src : Char} {dst X : List Char}
    (h1 : c ∉ X) (h2 : c ∉ dst) : c ∉ replaceChar src dst X := fun hm => by
  rcases mem_replaceChar hm with ⟨hx, _⟩ | hd
  · exact h1 hx
  · exact h2 hd

theorem not_mem_replaceChar_self {src : Char} {dst X : List Char}
    (h : src ∉ dst) : src ∉ replaceChar src dst X := fun hm => by
  rcases mem_replaceChar hm with ⟨_, hne⟩ | hd
  · exact hne rfl
  · exact h hd

theorem replaceFancy_eq_chain (l : List Char) :
    replaceFancy l = replaceChar '’' ['\''] (replaceChar '‘' ['\'']
      (replaceChar '”' ['"'] (replaceChar '“' ['"'] l))) := rfl

theorem not_mem_replaceFancy {g : Char}
    (hg : g = '“' ∨ g = '”' ∨ g = '‘' ∨ g = '’') (l : List Char) :
    g ∉ replaceFancy l := by
  rw [replaceFancy_eq_chain]
  rcases hg with rfl | rfl | rfl | rfl
  · exact not_mem_replaceChar (not_mem_replaceChar (not_mem_replaceChar
      (not_mem_replaceChar_self (by decide)) (by decide)) (by decide)) (by decide)
  · exact not_mem_replaceChar (not_mem_replaceChar
      (not_mem_replaceChar_self (by decide)) (by decide)) (by decide)
  · exact not_mem_replaceChar (not_mem_replaceChar_self (by decide)) (by decide)
  · exact not_mem_replaceChar_self (by decide)

theorem replaceFancy_eq_self {l : List Char}
    (h1 : '“' ∉ l) (h2 : '”' ∉ l) (h3 : '‘' ∉ l) (h4 : '’' ∉ l) :
    replaceFancy l = l := by
  rw [replaceFancy_eq_chain, replaceChar_eq_self h1, replaceChar_eq_self h2,
    replaceChar_eq_self h3, replaceChar_eq_self h4]

theorem mem_replaceFancy {c : Char} {l : List Char}
    (h : c ∈ replaceFancy l) : c ∈ l ∨ c = '"' ∨ c = '\'' := by
  rw [replaceFancy_eq_chain] at h
  rcases mem_replaceChar h with ⟨h, -⟩ | h
  · rcases mem_replaceChar h with ⟨h, -⟩ | h
    · rcases mem_replaceChar h with ⟨h, -⟩ | h
      · rcases mem_replaceChar h with ⟨h, -⟩ | h
        · exact Or.inl h
        · exact Or.inr (Or.inl (List.mem_singleton.mp h))
      · exact Or.inr (Or.inl (List.mem_singleton.mp h))
    · exact Or.inr (Or.inr (List.mem_singleton.mp h))
  · exact Or.inr (Or.inr (List.mem_singleton.mp h))

theorem mem_langFold : ∀ (E : List (Char × List Char)) (t : List Char) (n : Nat)
    {c : Char}, c ∈ (langFold E (t, n)).1 → c ∈ t ∨ ∃ e ∈ E, c ∈ e.2 := by
  intro E
  induction E with
  | nil =>
    intro t n c hc
    exact Or.inl hc
  | cons e E ih =>
    intro t n c hc
    rw [langFold_cons] at hc
    by_cases he : e.1 ∈ t
    · rw [if_pos he] at hc
      rcases ih _ _ hc with hct | ⟨f, hf, hcf⟩
      · rcases mem_replaceChar hct with ⟨hl, -⟩ | hd
        · exact Or.inl hl
        · exact Or.inr ⟨e, List.mem_cons_self _ _, hd⟩
      · exact Or.inr ⟨f, List.mem_cons_of_mem _ hf, hcf⟩
    · rw [if_neg he] at hc
      rcases ih _ _ hc with hct | ⟨f, hf, hcf⟩
      · exact Or.inl hct
      · exact Or.inr ⟨f, List.mem_cons_of_mem _ hf, hcf⟩

theorem not_mem_langFold {c : Char} : ∀ (E : List (Char × List Char))
    (t : List Char) (n : Nat), c ∉ t → (∀ e ∈ E, c ∉ e.2) →
    c ∉ (langFold E (t, n)).1 := fun E t n ht hE hc => by
  rcases mem_langFold E t n hc with h | ⟨f, hf, hcf⟩
  · exact ht h
  · exact hE f hf hcf

theorem langFold_src_free (E : List (Char × List Char))
    (hdisj : ∀ e ∈ E, ∀ e' ∈ E, e.1 ∉ e'.2) :
    ∀ (t : List Char) (n : Nat) (e : Char × List Char), e ∈ E →
      e.1 ∉ (langFold E (t, n)).1 := by
  induction E with
  | nil =>
    intro t n e he
    cases he
  | cons e0 E ih =>
    intro t n e he
    have hdisj' : ∀ f ∈ E, ∀ f' ∈ E, f.1 ∉ f'.2 := fun f hf f' hf' =>
      hdisj f (List.mem_cons_of_mem _ hf) f' (List.mem_cons_of_mem _ hf')
    rw [langFold_cons]
    rcases List.mem_cons.mp he with rfl | heE
    · by_cases hin : e.1 ∈ t
      · rw [if_pos hin]
        refine not_mem_langFold E _ _ ?_ ?_
        · exact not_mem_replaceChar_self
            (hdisj e (List.mem_cons_self _ _) e (List.mem_cons_self _ _))
        · intro f hf
          exact hdisj e (List.mem_cons_self _ _) f (List.mem_cons_of_mem _ hf)
      · rw [if_neg hin]
        refine not_mem_langFold E _ _ hin ?_
        intro f hf
        exact hdisj e (List.mem_cons_self _ _) f (List.mem_cons_of_mem _ hf)
    · by_cases hin : e0.1 ∈ t
      · rw [if_pos hin]
        exact ih hdisj' _ _ e heE
      · rw [if_neg hin]
        exact ih hdisj' _ _ e heE

theorem langFold_eq_self : ∀ (E : List (Char × List Char)) (t : List Char)
    (n : Nat), (∀ e ∈ E, e.1 ∉ t) → langFold E (t, n) = (t, n) := by
  intro E
  induction E with
  | nil =>
    intro t n _
    rfl
  | cons e E ih =>
    intro t n h
    rw [langFold_cons, if_neg (h e (List.mem_cons_self _ _))]
    exact ih t n fun f hf => h f (List.mem_cons_of_mem _ hf)

theorem replaceCRLF_cons_ne {c0 : Char} {cs : List Char}
    (h : ∀ (cs' : List Char), c0 = '\r' → cs = '\n' :: cs' → False) :
    replaceCRLF (c0 :: cs) = c0 :: replaceCRLF cs := by
  conv_lhs => rw [replaceCRLF.eq_def]
  split <;> simp_all

theorem mem_replaceCRLF : ∀ {l : List Char} {c : Char},
    c ∈ replaceCRLF l → c ∈ l := by
  intro l
  induction l using replaceCRLF.induct with
  | case1 cs ih =>
    intro c hc
    rw [show replaceCRLF ('\r' :: '\n' :: cs) = '\n' :: replaceCRLF cs from rfl] at hc
    rcases List.mem_cons.mp hc with rfl | hc
    · exact List.mem_cons_of_mem _ (List.mem_cons_self _ _)
    · exact List.mem_cons_of_mem _ (List.mem_cons_of_mem _ (ih hc))
  | case2 c0 cs h ih =>
    intro c hc
    rw [replaceCRLF_cons_ne h] at hc
    rcases List.mem_cons.mp hc with rfl | hc
    · exact List.mem_cons_self _ _
    · exact List.mem_cons_of_mem _ (ih hc)
  | case3 =>
    intro c hc
    cases hc

theorem replaceCRLF_eq_self : ∀ {l : List Char}, '\r' ∉ l → replaceCRLF l = l := by
  intro l
  induction l using replaceCRLF.induct with
  | case1 cs ih =>
    intro h
    exact absurd (List.mem_cons_self _ _) h
  | case2 c0 cs h ih =>
    intro hnr
    rw [replaceCRLF_cons_ne h, ih fun hm => hnr (List.mem_cons_of_mem _ hm)]
  | case3 =>
    intro _
    rfl

theorem mem_subWs : ∀ {l : List Char} {c : Char},
    c ∈ subWs l → c ∈ l ∨ c = ' ' := by
  intro l
  induction l using subWs.induct with
  | case1 =>
    intro c hc
    cases hc
  | case2 c0 h =>
    intro c hc
    exact Or.inr (List.mem_singleton.mp (by
      rwa [show subWs [c0] = [' '] by simp [subWs, h]] at hc))
  | case3 c0 h =>
    intro c hc
    rw [show subWs [c0] = [c0] by simp [subWs, bool_ne_true h]] at hc
    exact Or.inl hc
  | case4 c0 d cs h1 h2 ih =>
    intro c hc
    rw [show subWs (c0 :: d :: cs) = subWs (d :: cs) by simp [subWs, h1, h2]] at hc
    rcases ih hc with h | h
    · exact Or.inl (List.mem_cons_of_mem _ h)
    · exact Or.inr h
  | case5 c0 d cs h1 h2 ih =>
    intro c hc
    rw [show subWs (c0 :: d :: cs) = ' ' :: subWs (d :: cs) by
      simp [subWs, h1, bool_ne_true h2]] at hc
    rcases List.mem_cons.mp hc with rfl | hc
    · exact Or.inr rfl
    · rcases ih hc with h | h
      · exact Or.inl (List.mem_cons_of_mem _ h)
      · exact Or.inr h
  | case6 c0 d cs h1 ih =>
    intro c hc
    rw [show subWs (c0 :: d :: cs) = c0 :: subWs (d :: cs) by
      simp [subWs, bool_ne_true h1]] at hc
    rcases List.mem_cons.mp hc with rfl | hc
    · exact Or.inl (List.mem_cons_self _ _)
    · rcases ih hc with h | h
      · exact Or.inl (List.mem_cons_of_mem _ h)
      · exact Or.inr h

theorem mem_collapseWs {l : List Char} {c : Char} (h : c ∈ collapseWs l) :
    c ∈ l ∨ c = ' ' :=
  mem_subWs ((stripWs_sublist (subWs l)).subset h)

/-- Every character of the cleaned output is either a character of the text
as it stood after the (optional) language step, or an ASCII space, or a
newline introduced by CR normalization. -/
theorem mem_clean_chain (s : List Char) (m : Bool) : ∀ c ∈ (clean_text s m).1,
    c ∈ (if m then (langStep (replaceFancy s)).1 else replaceFancy s)
      ∨ c = ' ' ∨ c = '\n' := by
  rw [clean_text_fst]
  intro c hc
  rcases mem_collapseWs hc with hc | rfl
  · have hc5 := (utmAux_sublist false _).subset hc
    rcases mem_collapseWs hc5 with hc4 | rfl
    · unfold normalizeNewlines at hc4
      rcases mem_replaceChar hc4 with ⟨hc3, -⟩ | hd
      · exact Or.inl (mem_replaceCRLF hc3)
      · exact Or.inr (Or.inr (List.mem_singleton.mp hd))
    · exact Or.inr (Or.inl rfl)
  · exact Or.inr (Or.inl rfl)

theorem fancy_double_count (s : List Char) (m : Bool) :
    (clean_text s m).2.fancy_double_before = s.count '“' + s.count '”' := by
  show (FANCY_DOUBLE.map fun ch => s.count ch).sum = _
  simp [FANCY_DOUBLE]

theorem fancy_single_count (s : List Char) (m : Bool) :
    (clean_text s m).2.fancy_single_before = s.count '‘' + s.count '’' := by
  show (FANCY_SINGLE.map fun ch => s.count ch).sum = _
  simp [FANCY_SINGLE]

/-- C1: for every input string and every `languageMode`, the summary's
`final_length` entry equals the character length of the returned cleaned
string. -/
theorem C1_final_length (s : List Char) (m : Bool) :
    (clean_text s m).2.final_length = (clean_text s m).1.length := rfl

/-- C2: `clean_text` is a total Lean function (it raises nothing and is
defined on every string), and on the empty string it returns the empty
string with all-zero counts, `final_length = 0`, and a `lang_punct_replaced`
key that is present (and zero) exactly when language mode was requested. -/
theorem C2_total_empty (m : Bool) :
    clean_text [] m =
      ([], { fancy_double_before := 0, fancy_single_before := 0,
             lang_punct_replaced := if m then some 0 else none,
             utm_removed_count := 0, final_length := 0 }) := by
  cases m <;> rfl

/-- C3: `fancy_double_before` is the combined count of the two fancy double
quotes in the original input and `fancy_single_before` the combined count of
the two fancy single quotes; the replacement step maps every fancy double
quote to `"` and every fancy single quote to `'`, leaving all other
characters in place; and on `"Hello “World”"` the result is
`Hello "World"` with counts 2 and 0. -/
theorem C3_fancy_quotes (s : List Char) (m : Bool) :
    (clean_text s m).2.fancy_double_before = s.count '“' + s.count '”' ∧
    (clean_text s m).2.fancy_single_before = s.count '‘' + s.count '’' ∧
    replaceFancy s = s.map quoteMap ∧
    clean_text "Hello “World”".data false =
      ("Hello \"World\"".data,
       { fancy_double_before := 2, fancy_single_before := 0,
         lang_punct_replaced := none, utm_removed_count := 0,
         final_length := 13 }) := by
  refine ⟨?_, ?_, ?_, by decide⟩
  · show (FANCY_DOUBLE.map fun ch => s.count ch).sum = _
    simp [FANCY_DOUBLE]
  · show (FANCY_SINGLE.map fun ch => s.count ch).sum = _
    simp [FANCY_SINGLE]
  · show replaceChar '’' ['\''] (replaceChar '‘' ['\'']
        (replaceChar '”' ['"'] (replaceChar '“' ['"'] s))) = _
    simp only [replaceChar_singleton, List.map_map]
    refine List.map_congr_left fun c _ => ?_
    simp only [Function.comp_apply, quoteMap]
    by_cases h1 : c = '“' <;> by_cases h2 : c = '”' <;>
      by_cases h3 : c = '‘' <;> by_cases h4 : c = '’' <;>
      simp_all

/-- C5: the `lang_punct_replaced` key is present in the summary iff
`languageMode` is true; when present it equals the number of characters of
the text (after quote replacement) that are sources of the punctuation
table — the total number of characters replaced, zero when nothing
matched — and when `languageMode` is false the key is absent. -/
theorem C5_lang_key (s : List Char) (m : Bool) :
    ((clean_text s m).2.lang_punct_replaced).isSome = m ∧
    (clean_text s m).2.lang_punct_replaced =
      (if m then some ((replaceFancy s).countP fun c => langSources.contains c)
       else none) := by
  rw [clean_text_lang_opt, langStep_snd_eq]
  cases m
  · exact ⟨rfl, rfl⟩
  · exact ⟨rfl, rfl⟩

/-- C10: with language mode off, the cleaned output is never longer than
the input (every step preserves or reduces the character count). -/
theorem C10_length_le (s : List Char) :
    (clean_text s false).1.length ≤ s.length := by
  rw [clean_text_fst]
  rw [if_neg Bool.false_ne_true]
  refine le_trans (length_collapseWs_le _) ?_
  refine le_trans (length_utmAux_le _ _) ?_
  refine le_trans (length_collapseWs_le _) ?_
  refine le_trans (length_normalizeNewlines_le _) ?_
  exact le_of_eq (length_replaceFancy s)

/-- C7 (amended): the four count entries of the summary are non-negative
integers bounded by the input length; `final_length` is bounded by three
times the input length (language mode can replace a one-character ellipsis
by three dots, so the input length itself is not a bound for it). -/
theorem C7_amended (s : List Char) (m : Bool) :
    (clean_text s m).2.fancy_double_before ≤ s.length ∧
    (clean_text s m).2.fancy_single_before ≤ s.length ∧
    (clean_text s m).2.lang_punct_replaced.getD 0 ≤ s.length ∧
    (clean_text s m).2.utm_removed_count ≤ s.length ∧
    (clean_text s m).2.final_length ≤ 3 * s.length := by
  have ht2 := length_replaceFancy s
  have ht3 : (if m then (langStep (replaceFancy s)).1 else replaceFancy s).length
      ≤ 3 * s.length := by
    cases m
    · rw [if_neg Bool.false_ne_true]
      omega
    · rw [if_pos rfl]
      have := langStep_fst_length_le (replaceFancy s)
      omega
  have ht5 : (collapseWs (normalizeNewlines
      (if m then (langStep (replaceFancy s)).1 else replaceFancy s))).length
      ≤ 3 * s.length :=
    le_trans (length_collapseWs_le _) (le_trans (length_normalizeNewlines_le _) ht3)
  refine ⟨?_, ?_, ?_, ?_, ?_⟩
  · rw [fancy_double_count]
    exact count_two_le (by decide) s
  · rw [fancy_single_count]
    exact count_two_le (by decide) s
  · rw [clean_text_lang_opt]
    cases m
    · simp
    · rw [if_pos rfl]
      have h1 := langStep_snd_le (replaceFancy s)
      simp only [Option.getD_some]
      omega
  · have e : (clean_text s m).2.utm_removed_count =
        (utmAux false (collapseWs (normalizeNewlines
          (if m then (langStep (replaceFancy s)).1 else replaceFancy s)))).1 := rfl
    rw [e]
    have h6 := utm_count_bound false (collapseWs (normalizeNewlines
      (if m then (langStep (replaceFancy s)).1 else replaceFancy s)))
    omega
  · have e : (clean_text s m).2.final_length = (clean_text s m).1.length := rfl
    rw [e, clean_text_fst]
    exact le_trans (length_collapseWs_le _) (le_trans (length_utmAux_le _ _) ht5)

/-- C7 fails as stated: with language mode on, the ellipsis character
(one character) is replaced by three ASCII dots, so `final_length` can
exceed the input length. -/
theorem C7_counterexample :
    ¬ ((clean_text ['…'] true).2.final_length ≤ ([('…' : Char)] : List Char).length) := by
  decide

/-- C8: `clean_text` is deterministic — two runs on identical arguments
return identical cleaned text and identical summaries. -/
theorem C8_deterministic (s : List Char) (m : Bool) (o₁ o₂ : List Char × Summary)
    (h₁ : o₁ = clean_text s m) (h₂ : o₂ = clean_text s m) : o₁ = o₂ :=
  h₁.trans h₂.symm

/-- Witness for C8 at a concrete input. -/
theorem C8_deterministic_witness :
    clean_text ['“', 'a'] true = clean_text ['“', 'a'] true :=
  C8_deterministic ['“', 'a'] true _ _ rfl rfl

theorem utmAux_false_append_no_q : ∀ (a t : List Char), '?' ∉ a →
    utmAux false (a ++ t) = ((utmAux false t).1, a ++ (utmAux false t).2) := by
  intro a
  induction a with
  | nil =>
    intro t _
    rfl
  | cons c a ih =>
    intro t ha
    have hc : c ≠ '?' := fun h => ha (List.mem_cons.mpr (Or.inl h.symm))
    rw [List.cons_append, utmAux_false_cons_ne _ hc,
      ih t fun h => ha (List.mem_cons_of_mem _ h)]
    rfl

theorem utmAux_true_append_ns : ∀ (b t : List Char),
    (∀ c ∈ b, isPySpace c = false) → utmAux true (b ++ t) = utmAux true t := by
  intro b
  induction b with
  | nil =>
    intro t _
    rfl
  | cons c b ih =>
    intro t hb
    rw [List.cons_append, utmAux_true_cons_ns _ (hb c (List.mem_cons_self _ _)),
      ih t fun x hx => hb x (List.mem_cons_of_mem _ hx)]

/-- C4: on the whitespace-collapsed text, the scanner matches the literal
`?utm_` followed greedily by one or more non-whitespace characters up to
the next whitespace or end of string; the match is counted once and deleted
entirely, everything before it is kept, and scanning continues after it.
In particular the spec's URL example loses exactly its `?utm_...` fragment
with `utm_removed_count = 1`. -/
theorem C4_utm_matches (a b rest : List Char)
    (ha : '?' ∉ a) (hb : b ≠ []) (hbns : ∀ c ∈ b, isPySpace c = false)
    (hrest : spaceHeaded rest) :
    utmAux false (a ++ ('?' :: 'u' :: 't' :: 'm' :: '_' :: (b ++ rest)))
      = ((utmAux false rest).1 + 1, a ++ (utmAux false rest).2) ∧
    clean_text
        "Check this: https://example.com/page?utm_source=x&utm_medium=y more text".data
        false
      = ("Check this: https://example.com/page more text".data,
         { fancy_double_before := 0, fancy_single_before := 0,
           lang_punct_replaced := none, utm_removed_count := 1,
           final_length := 46 }) := by
  refine ⟨?_, by decide⟩
  rw [utmAux_false_append_no_q a _ ha]
  obtain ⟨d, bs, rfl⟩ : ∃ d bs, b = d :: bs := by
    cases b with
    | nil => exact absurd rfl hb
    | cons d bs => exact ⟨d, bs, rfl⟩
  rw [List.cons_append,
    utmAux_false_match_ns _ (hbns d (List.mem_cons_self _ _)),
    utmAux_true_append_ns bs rest fun x hx => hbns x (List.mem_cons_of_mem _ hx)]
  rcases hrest with rfl | ⟨r, rs, rfl, hr⟩
  · rw [utmAux_true_nil, utmAux_false_nil]
  · rw [utmAux_true_cons_sp _ hr, utmAux_false_cons_ne _ (space_ne_q hr)]

/-- Witness for C4: one concrete match `x ?utm_ab cd` with prefix `x `,
greedy tail `ab`, and remainder ` cd`. -/
theorem C4_utm_matches_witness :
    utmAux false ("x ".data ++ ('?' :: 'u' :: 't' :: 'm' :: '_' ::
        ("ab".data ++ " cd".data)))
      = ((utmAux false " cd".data).1 + 1, "x ".data ++ (utmAux false " cd".data).2) :=
  (C4_utm_matches "x ".data "ab".data " cd".data (by decide) (by decide) (by decide)
    (Or.inr ⟨' ', "cd".data, by decide, by decide⟩)).1

/-- C6: `clean_text` reaches a fixed point after one application — cleaning
the cleaned text again, with the same language mode, returns the same
cleaned text. -/
theorem C6_idempotent (s : List Char) (m : Bool) :
    (clean_text ((clean_text s m).1) m).1 = (clean_text s m).1 := by
  have hall : ∀ c ∈ (clean_text s m).1, isPySpace c = true → c = ' ' := by
    rw [clean_text_fst]
    exact collapseWs_all_space _
  have hnds : noDoubleSpace (clean_text s m).1 = true := by
    rw [clean_text_fst]
    exact collapseWs_noDouble _
  have hhead : ∀ c, ((clean_text s m).1).head? = some c → isPySpace c = false := by
    rw [clean_text_fst]
    exact fun c hc => collapseWs_head_ns _ hc
  have hlast : ∀ c, ((clean_text s m).1).getLast? = some c → isPySpace c = false := by
    rw [clean_text_fst]
    exact fun c hc => collapseWs_last_ns _ hc
  have hfree : utmFree (clean_text s m).1 := by
    rw [clean_text_fst]
    exact collapseWs_utmFree _ (utm_output_free _)
  have hchain := mem_clean_chain s m
  have hnofancy : ∀ g, (g = '“' ∨ g = '”' ∨ g = '‘' ∨ g = '’') →
      g ∉ (clean_text s m).1 := by
    intro g hg hmem
    rcases hchain g hmem with h3 | rfl | rfl
    · by_cases hm : m = true
      · rw [hm, if_pos rfl] at h3
        rcases mem_langFold _ _ _ h3 with h2 | ⟨f, hf, hgf⟩
        · exact not_mem_replaceFancy hg _ h2
        · rcases hg with rfl | rfl | rfl | rfl
          · exact (by decide : ∀ f ∈ LANG_PUNCT_MAP, ('“' : Char) ∉ f.2) f hf hgf
          · exact (by decide : ∀ f ∈ LANG_PUNCT_MAP, ('”' : Char) ∉ f.2) f hf hgf
          · exact (by decide : ∀ f ∈ LANG_PUNCT_MAP, ('‘' : Char) ∉ f.2) f hf hgf
          · exact (by decide : ∀ f ∈ LANG_PUNCT_MAP, ('’' : Char) ∉ f.2) f hf hgf
      · rw [bool_ne_true hm, if_neg Bool.false_ne_true] at h3
        exact not_mem_replaceFancy hg _ h3
    · rcases hg with h | h | h | h <;> exact absurd h (by decide)
    · rcases hg with h | h | h | h <;> exact absurd h (by decide)
  have hnosrc : m = true → ∀ e ∈ LANG_PUNCT_MAP, e.1 ∉ (clean_text s m).1 := by
    intro hm e he hmem
    rcases hchain e.1 hmem with h3 | hsp | hnl
    · rw [hm, if_pos rfl] at h3
      exact langFold_src_free LANG_PUNCT_MAP (by decide) _ _ e he h3
    · exact (by decide : ∀ e ∈ LANG_PUNCT_MAP, e.1 ≠ ' ') e he hsp
    · exact (by decide : ∀ e ∈ LANG_PUNCT_MAP, e.1 ≠ '\n') e he hnl
  have hnor : '\r' ∉ (clean_text s m).1 := fun hm => by
    have h := hall _ hm (by decide)
    exact absurd h (by decide)
  have e2 : replaceFancy (clean_text s m).1 = (clean_text s m).1 :=
    replaceFancy_eq_self (hnofancy _ (Or.inl rfl))
      (hnofancy _ (Or.inr (Or.inl rfl)))
      (hnofancy _ (Or.inr (Or.inr (Or.inl rfl))))
      (hnofancy _ (Or.inr (Or.inr (Or.inr rfl))))
  have e3 : (if m then (langStep (replaceFancy (clean_text s m).1)).1
      else replaceFancy (clean_text s m).1) = (clean_text s m).1 := by
    rw [e2]
    by_cases hm : m = true
    · rw [if_pos hm]
      show (langFold LANG_PUNCT_MAP ((clean_text s m).1, 0)).1 = _
      rw [langFold_eq_self _ _ _ fun e he => hnosrc hm e he]
    · rw [if_neg hm]
  have e4 : normalizeNewlines (clean_text s m).1 = (clean_text s m).1 := by
    unfold normalizeNewlines
    rw [replaceCRLF_eq_self hnor, replaceChar_eq_self hnor]
  have e5 : subWs (clean_text s m).1 = (clean_text s m).1 :=
    subWs_eq_self _ hall hnds
  have e6 : stripWs (clean_text s m).1 = (clean_text s m).1 :=
    stripWs_eq_self hhead hlast
  have e7 : collapseWs (clean_text s m).1 = (clean_text s m).1 := by
    unfold collapseWs
    rw [e5, e6]
  have e8 : utmAux false (clean_text s m).1 = (0, (clean_text s m).1) :=
    utmFree_fixed false _ rfl hfree
  conv_lhs => rw [clean_text_fst]
  rw [e3, e4, e7, e8]
  exact e7

/-- C9: the cleaned output contains no tab, carriage return or newline, has
no two adjacent whitespace characters, and neither starts nor ends with
whitespace — every whitespace character of the output is a single interior
ASCII space. -/
theorem C9_ws_normalized (s : List Char) (m : Bool) :
    allWsIsSpace (clean_text s m).1 = true ∧
    noDoubleSpace (clean_text s m).1 = true ∧
    noEdgeWs (clean_text s m).1 = true ∧
    ((clean_text s m).1.contains '\t' || (clean_text s m).1.contains '\r' ||
      (clean_text s m).1.contains '\n') = false := by
  rw [clean_text_fst]
  have hall := collapseWs_all_space ((utmAux false (collapseWs (normalizeNewlines
    (if m then (langStep (replaceFancy s)).1 else replaceFancy s)))).2)
  refine ⟨?_, collapseWs_noDouble _, ?_, ?_⟩
  · rw [allWsIsSpace, List.all_eq_true]
    intro c hc
    by_cases hsp : isPySpace c = true
    · rw [hall c hc hsp]
      rfl
    · rw [bool_ne_true hsp]
      rfl
  · rw [noEdgeWs, Bool.and_eq_true]
    constructor
    · cases hh : (collapseWs _).head? with
      | none => rfl
      | some c =>
        show (!isPySpace c) = true
        rw [collapseWs_head_ns _ hh]
        rfl
    · cases hh : (collapseWs _).getLast? with
      | none => rfl
      | some c =>
        show (!isPySpace c) = true
        rw [collapseWs_last_ns _ hh]
        rfl
  · have hnot : ∀ b : Char, isPySpace b = true → b ≠ ' ' →
        ((collapseWs ((utmAux false (collapseWs (normalizeNewlines
          (if m then (langStep (replaceFancy s)).1 else replaceFancy s)))).2)).contains b)
          = false := by
      intro b hb hbne
      rw [Bool.eq_false_iff]
      intro hc
      have hmem : b ∈ collapseWs ((utmAux false (collapseWs (normalizeNewlines
          (if m then (langStep (replaceFancy s)).1 else replaceFancy s)))).2) := by
        simpa using hc
      exact hbne (hall b hmem hb)
    rw [hnot '\t' (by decide) (by decide), hnot '\r' (by decide) (by decide),
      hnot '\n' (by decide) (by decide)]
    rfl

end ClipCleaner
